import Mathlib

/-!
Shallow embedding of `src/dist/EventEmitter.js` (class `EventEmitter`).

Handler references are opaque identities, modelled as `Nat`; event payloads
are likewise modelled as `Nat`.  A JavaScript `Set` is modelled as a list in
insertion order (`setAdd` appends only when absent, `setDelete` removes the
element), and a plain JavaScript object used as a string-keyed map is
modelled as an association list in key-insertion order (`objGet` / `objSet`).

`emit` is the only observable operation: besides the updated dispatcher
state it returns the trace of handler invocations, in order.  A call to a
universal handler (from `allEvents`) records the raw event name and payload;
a call to a name-scoped handler records the payload only, mirroring the
argument lists `callback(type, arg)` and `callback(arg)` of the source.

Handlers are opaque: the embedding does not model a handler that itself
mutates the dispatcher during `emit`.  Within a single `emit`, the source's
own mutation of the iterated set (the one-shot removal) only ever deletes
the element currently being visited, so folding over a snapshot of the set
agrees with JavaScript `Set.forEach` live-iteration semantics.
-/

/-- A JavaScript `Set.add`: append unless already present (identity equality). -/
def setAdd (s : List Nat) (a : Nat) : List Nat :=
  if s.contains a then s else s ++ [a]

/-- A JavaScript `Set.delete`: remove the element if present. -/
def setDelete (s : List Nat) (a : Nat) : List Nat :=
  s.erase a

/-- Property read `o[k]` on a plain object: `none` models `undefined`. -/
def objGet (o : List (String × List Nat)) (k : String) : Option (List Nat) :=
  (o.find? (fun p => p.1 == k)).map (fun p => p.2)

/-- Property write `o[k] = v` on a plain object: overwrite the entry if the
key exists (keeping its position), otherwise append a new entry. -/
def objSet (o : List (String × List Nat)) (k : String) (v : List Nat) :
    List (String × List Nat) :=
  match o with
  | [] => [(k, v)]
  | p :: rest => if p.1 == k then (k, v) :: rest else p :: objSet rest k v

/-- The state of an `EventEmitter` instance: the fields set up in the
constructor of `src/dist/EventEmitter.js`. -/
structure EventEmitter where
  allEvents : List Nat
  events : List (String × List Nat)
  onceCallbacks : List (String × List Nat)
  eventsPfx : String
  autoPfx : Bool
deriving DecidableEq

/-- `new EventEmitter(eventsPrefix, autoPrefix)`: all three collections start
empty. -/
def mkEmitter (pfx : String) (auto : Bool) : EventEmitter :=
  { allEvents := [], events := [], onceCallbacks := [], eventsPfx := pfx,
    autoPfx := auto }

namespace EventEmitter

/-- `getEventName(type, usePrefix = this.autoPrefix)`: prepend
`eventsPrefix:` exactly when the configured prefix is non-empty (truthy) and
`usePrefix` holds. -/
def getEventName (e : EventEmitter) (type_ : String) (usePfx : Bool) : String :=
  if (e.eventsPfx != "") && usePfx then e.eventsPfx ++ ":" ++ type_ else type_

/-- `on(type, callback)`: add the handler to the set for the resolved name,
creating the set if absent. -/
def on_ (e : EventEmitter) (type_ : String) (callback : Nat) : EventEmitter :=
  let t := e.getEventName type_ e.autoPfx
  let s := (objGet e.events t).getD []
  { e with events := objSet e.events t (setAdd s callback) }

/-- `off(type, callback)`: if no set exists for the resolved name, return
unchanged; otherwise delete the handler from that set. -/
def off (e : EventEmitter) (type_ : String) (callback : Nat) : EventEmitter :=
  let t := e.getEventName type_ e.autoPfx
  match objGet e.events t with
  | none => e
  | some s => { e with events := objSet e.events t (setDelete s callback) }

/-- `one(type, callback)`: replace the whole set for the resolved name with
a fresh singleton set. -/
def one (e : EventEmitter) (type_ : String) (callback : Nat) : EventEmitter :=
  let t := e.getEventName type_ e.autoPfx
  { e with events := objSet e.events t [callback] }

/-- `once(type, callback)`: register as `on` does and additionally mark the
handler in `onceCallbacks` for the resolved name. -/
def once (e : EventEmitter) (type_ : String) (callback : Nat) : EventEmitter :=
  let t := e.getEventName type_ e.autoPfx
  let s := (objGet e.events t).getD []
  let os := (objGet e.onceCallbacks t).getD []
  { e with events := objSet e.events t (setAdd s callback),
           onceCallbacks := objSet e.onceCallbacks t (setAdd os callback) }

/-- `onAll(callback)`: add to the universal handler set. -/
def onAll (e : EventEmitter) (callback : Nat) : EventEmitter :=
  { e with allEvents := setAdd e.allEvents callback }

/-- `offAll(callback)`: remove from the universal handler set. -/
def offAll (e : EventEmitter) (callback : Nat) : EventEmitter :=
  { e with allEvents := setDelete e.allEvents callback }

end EventEmitter

/-- One recorded handler invocation during `emit`: `uni cb name arg` is
`callback(type, arg)` on a universal handler, `named cb arg` is
`callback(arg)` on a name-scoped handler. -/
inductive Call where
  | uni (cb : Nat) (name : String) (arg : Nat)
  | named (cb : Nat) (arg : Nat)
deriving DecidableEq

namespace EventEmitter

/-- The body of the `forEach` over `this.events[_type]` inside `emit`:
invoke the handler (append the call to the trace), then, if the handler is
marked in `onceCallbacks[_type]`, run `this.off(type, callback)` (note: the
raw `type`, re-resolved with the `autoPrefix` default) and delete the
marker. `type_` is the raw name, `t` the name resolved with `usePrefix =
true`. -/
def emitStep (type_ t : String) (arg : Nat) (acc : EventEmitter × List Call)
    (cb : Nat) : EventEmitter × List Call :=
  let e1 := acc.1
  let calls := acc.2 ++ [Call.named cb arg]
  let e2 :=
    if ((objGet e1.onceCallbacks t).getD []).contains cb then
      let ea := e1.off type_ cb
      let os := setDelete ((objGet ea.onceCallbacks t).getD []) cb
      { ea with onceCallbacks := objSet ea.onceCallbacks t os }
    else e1
  (e2, calls)

/-- `emit(type, arg)`: resolve the name with `usePrefix = true`, invoke all
universal handlers with `(type, arg)`, then — if a set exists for the
resolved name — invoke each of its handlers with `(arg)`, applying the
one-shot removal after each marked handler. Returns the updated state and
the invocation trace. -/
def emit (e : EventEmitter) (type_ : String) (arg : Nat) :
    EventEmitter × List Call :=
  let t := e.getEventName type_ true
  let uniCalls := e.allEvents.map (fun cb => Call.uni cb type_ arg)
  match objGet e.events t with
  | none => (e, uniCalls)
  | some s => s.foldl (emitStep type_ t arg) (e, uniCalls)

end EventEmitter

/-- A public method call, for stating properties uniform in the method. -/
inductive Op where
  | onOp (t : String) (cb : Nat)
  | offOp (t : String) (cb : Nat)
  | oneOp (t : String) (cb : Nat)
  | onceOp (t : String) (cb : Nat)
  | onAllOp (cb : Nat)
  | offAllOp (cb : Nat)
  | emitOp (t : String) (arg : Nat)
deriving DecidableEq

/-- Run one public method: the resulting state of `this`, paired with the
method's return value (`some` an instance; `none` would model returning
`undefined`). Every method of the source ends in `return this`, the `off`
early-return path included, so each branch returns the post-state. -/
def callMethod (e : EventEmitter) : Op → EventEmitter × Option EventEmitter
  | Op.onOp t cb => let e1 := e.on_ t cb; (e1, some e1)
  | Op.offOp t cb => let e1 := e.off t cb; (e1, some e1)
  | Op.oneOp t cb => let e1 := e.one t cb; (e1, some e1)
  | Op.onceOp t cb => let e1 := e.once t cb; (e1, some e1)
  | Op.onAllOp cb => let e1 := e.onAll cb; (e1, some e1)
  | Op.offAllOp cb => let e1 := e.offAll cb; (e1, some e1)
  | Op.emitOp t arg => let e1 := (e.emit t arg).1; (e1, some e1)

/-- The invariant of spec §3: every handler marked once for a name is also
registered for that name. -/
def invOnce (e : EventEmitter) : Prop :=
  ∀ t cb os, objGet e.onceCallbacks t = some os → cb ∈ os →
    ∃ s, objGet e.events t = some s ∧ cb ∈ s

/-- Whether a recorded call invoked the handler `cb`. -/
def callOf (cb : Nat) : Call → Bool
  | Call.uni c _ _ => c == cb
  | Call.named c _ => c == cb

/-! ### Lemmas about the set and object primitives -/

theorem mem_setAdd_iff (s : List Nat) (a b : Nat) :
    b ∈ setAdd s a ↔ b ∈ s ∨ b = a := by
  unfold setAdd
  cases h : s.contains a
  · simp [h, List.mem_append]
  · have ha : a ∈ s := List.elem_iff.mp h
    simp only [h, if_true]
    constructor
    · exact Or.inl
    · rintro (hb | rfl)
      · exact hb
      · exact ha

theorem mem_setAdd_self (s : List Nat) (a : Nat) : a ∈ setAdd s a :=
  (mem_setAdd_iff s a a).mpr (Or.inr rfl)

theorem setAdd_of_mem (s : List Nat) (a : Nat) (h : a ∈ s) : setAdd s a = s := by
  unfold setAdd
  simp [h]

theorem objGet_objSet_self (o : List (String × List Nat)) (k : String)
    (v : List Nat) : objGet (objSet o k v) k = some v := by
  induction o with
  | nil => simp [objGet, objSet, List.find?]
  | cons p rest ih =>
    unfold objSet
    cases h : p.1 == k
    · simpa [objGet, List.find?, h] using ih
    · simp [objGet, List.find?]

theorem objGet_objSet_ne (o : List (String × List Nat)) (k k' : String)
    (v : List Nat) (hne : k ≠ k') :
    objGet (objSet o k v) k' = objGet o k' := by
  induction o with
  | nil => simp [objGet, objSet, List.find?, beq_eq_false_iff_ne.mpr hne]
  | cons p rest ih =>
    unfold objSet
    cases h : p.1 == k
    · simp only [Bool.false_eq_true, if_false]
      simp only [objGet] at ih
      cases h' : p.1 == k' <;> simp [objGet, List.find?, h', ih]
    · have hk : p.1 = k := eq_of_beq h
      have h' : (k == k') = false := beq_eq_false_iff_ne.mpr hne
      have hp' : (p.1 == k') = false := by rw [hk]; exact h'
      simp [objGet, List.find?, h', hp']

theorem objSet_objSet (o : List (String × List Nat)) (k : String)
    (v w : List Nat) : objSet (objSet o k v) k w = objSet o k w := by
  induction o with
  | nil => simp [objSet]
  | cons p rest ih =>
    unfold objSet
    cases h : p.1 == k
    · simp [objSet, h, ih]
    · simp [objSet, h]

theorem objSet_objGet_self (o : List (String × List Nat)) (k : String)
    (v : List Nat) (h : objGet o k = some v) : objSet o k v = o := by
  induction o with
  | nil => simp [objGet, List.find?] at h
  | cons p rest ih =>
    unfold objSet
    cases hp : p.1 == k
    · simp only [Bool.false_eq_true, if_false]
      have : objGet rest k = some v := by
        simpa [objGet, List.find?, hp] using h
      rw [ih this]
    · have hk : p.1 = k := eq_of_beq hp
      have hv : p.2 = v := by
        simpa [objGet, List.find?, hp] using h
      simp [← hk, ← hv]

/-! ### The shape of the `emit` invocation trace -/

theorem emitStep_trace (type_ t : String) (arg : Nat)
    (acc : EventEmitter × List Call) (cb : Nat) :
    (EventEmitter.emitStep type_ t arg acc cb).2 = acc.2 ++ [Call.named cb arg] :=
  rfl

theorem foldl_emitStep_trace (type_ t : String) (arg : Nat) (s : List Nat) :
    ∀ acc : EventEmitter × List Call,
      (s.foldl (EventEmitter.emitStep type_ t arg) acc).2 =
        acc.2 ++ s.map (fun cb => Call.named cb arg) := by
  induction s with
  | nil => intro acc; simp
  | cons a s ih =>
    intro acc
    rw [List.foldl_cons, ih, emitStep_trace, List.map_cons]
    simp

/-- The trace of `emit` is: one call per universal handler carrying the raw
name and the payload, followed by one call per handler in the set stored
under the resolved name (the empty list when no set exists), carrying the
payload. -/
theorem emit_trace (e : EventEmitter) (t : String) (arg : Nat) :
    (e.emit t arg).2 =
      e.allEvents.map (fun cb => Call.uni cb t arg) ++
        ((objGet e.events (e.getEventName t true)).getD []).map
          (fun cb => Call.named cb arg) := by
  unfold EventEmitter.emit
  cases h : objGet e.events (e.getEventName t true) with
  | none => simp [h]
  | some s => simp [h, foldl_emitStep_trace]

/-! ### Claim theorems -/

/-- Claim C4: during `emit(rawName, payload)` every universal handler is
invoked before any name-scoped handler, each universal handler receives
exactly the raw (un-prefixed) name together with the payload, and the
universal pass happens even when no handler set exists for the resolved
name (in which case the name-scoped part of the trace is empty). -/
theorem emit_universal_first_raw_name (e : EventEmitter) (t : String)
    (arg : Nat) :
    (e.emit t arg).2 =
      e.allEvents.map (fun cb => Call.uni cb t arg) ++
        ((objGet e.events (e.getEventName t true)).getD []).map
          (fun cb => Call.named cb arg) :=
  emit_trace e t arg

/-- Claim C10: when no handler set exists for the resolved name, `emit`
leaves the dispatcher state — the handler map, the once-marker map and the
universal-handler set — exactly as it was. -/
theorem emit_unknown_preserves_state (e : EventEmitter) (t : String)
    (arg : Nat) (h : objGet e.events (e.getEventName t true) = none) :
    (e.emit t arg).1 = e := by
  unfold EventEmitter.emit
  simp [h]

/-- Witness for C10 at a fresh dispatcher and a never-registered name. -/
theorem emit_unknown_preserves_state_witness :
    ((mkEmitter "" false).emit "y" 0).1 = mkEmitter "" false :=
  emit_unknown_preserves_state (mkEmitter "" false) "y" 0 (by decide)

/-- Claim C7: unknown names are never errors. Unregistering when no set
exists for the resolved name, or when the handler is absent from that set,
leaves the dispatcher state unchanged; and emitting a name with no handler
set produces only the universal pass (zero name-scoped invocations) and
leaves the state unchanged. -/
theorem unknown_name_noop :
    (∀ (e : EventEmitter) (t : String) (cb : Nat),
        objGet e.events (e.getEventName t e.autoPfx) = none → e.off t cb = e)
  ∧ (∀ (e : EventEmitter) (t : String) (cb : Nat) (s : List Nat),
        objGet e.events (e.getEventName t e.autoPfx) = some s → cb ∉ s →
          e.off t cb = e)
  ∧ (∀ (e : EventEmitter) (t : String) (arg : Nat),
        objGet e.events (e.getEventName t true) = none →
          (e.emit t arg).2 = e.allEvents.map (fun cb => Call.uni cb t arg)
          ∧ (e.emit t arg).1 = e) := by
  refine ⟨fun e t cb h => ?_, fun e t cb s hs habs => ?_, fun e t arg h => ?_⟩
  · unfold EventEmitter.off
    simp [h]
  · unfold EventEmitter.off
    simp only [hs]
    rw [setDelete, List.erase_of_not_mem habs, objSet_objGet_self _ _ _ hs]
  · refine ⟨?_, ?_⟩ <;> unfold EventEmitter.emit <;> simp [h]

/-- Witness for C7: on a dispatcher with only `on("x", 1)` registered,
unregistering `("y", 2)` (no set) and `("x", 2)` (absent handler) are
no-ops, and emitting `"y"` invokes nothing and changes nothing. -/
theorem unknown_name_noop_witness :
    ((mkEmitter "" false).on_ "x" 1).off "y" 2 = (mkEmitter "" false).on_ "x" 1
  ∧ ((mkEmitter "" false).on_ "x" 1).off "x" 2 = (mkEmitter "" false).on_ "x" 1
  ∧ (((mkEmitter "" false).on_ "x" 1).emit "y" 7).2 = []
  ∧ (((mkEmitter "" false).on_ "x" 1).emit "y" 7).1 =
      (mkEmitter "" false).on_ "x" 1 :=
  ⟨unknown_name_noop.1 _ "y" 2 (by decide),
   unknown_name_noop.2.1 _ "x" 2 [1] (by decide) (by decide),
   (unknown_name_noop.2.2 _ "y" 7 (by decide)).1,
   (unknown_name_noop.2.2 _ "y" 7 (by decide)).2⟩

/-- Claim C8: every public mutating method — `on`, `off`, `one`, `once`,
`onAll`, `offAll` and `emit` — returns the dispatcher instance itself (the
post-state of `this`), on every control path, enabling fluent chaining. -/
theorem methods_return_this (e : EventEmitter) (op : Op) :
    (callMethod e op).2 = some (callMethod e op).1 := by
  cases op <;> rfl

/-- Claim C3: emission always applies a configured non-empty prefix while
registration follows `autoPrefix`. With prefix `"ns"` and `autoPrefix`
false, `on("x", h)` stores `h` under the raw name `"x"`, `emit("x", p)`
resolves to `"ns:x"` and invokes nothing; with `autoPrefix` true,
`on("x", h)` followed by `emit("x", 42)` invokes `h` with `42` exactly
once. -/
theorem emit_forces_pfx_on_honors_autoPfx (h p : Nat) :
    objGet ((mkEmitter "ns" false).on_ "x" h).events "x" = some [h]
  ∧ (mkEmitter "ns" false).getEventName "x" true = "ns:x"
  ∧ (((mkEmitter "ns" false).on_ "x" h).emit "x" p).2 = []
  ∧ (((mkEmitter "ns" true).on_ "x" h).emit "x" 42).2 = [Call.named h 42] :=
  ⟨rfl, rfl, rfl, rfl⟩

/-- Claim C5: `one(name, h2)` replaces the whole handler set for the
resolved name with the singleton `[h2]` (for every dispatcher state), and
concretely `on("x", h1)` then `one("x", h2)` followed by `emit("x", p)`
invokes only `h2`: the trace is exactly one call of `h2` and contains no
call of `h1`. -/
theorem one_replaces_handler_set :
    (∀ (e : EventEmitter) (t : String) (cb : Nat),
        objGet (e.one t cb).events (e.getEventName t e.autoPfx) = some [cb])
  ∧ (∀ (h1 h2 p : Nat), h1 ≠ h2 →
      ((((mkEmitter "" false).on_ "x" h1).one "x" h2).emit "x" p).2 =
          [Call.named h2 p]
      ∧ (((((mkEmitter "" false).on_ "x" h1).one "x" h2).emit "x" p).2).filter
          (callOf h1) = []) := by
  constructor
  · intro e t cb
    unfold EventEmitter.one
    exact objGet_objSet_self e.events _ [cb]
  · intro h1 h2 p hne
    have htr : ((((mkEmitter "" false).on_ "x" h1).one "x" h2).emit "x" p).2 =
        [Call.named h2 p] := rfl
    refine ⟨htr, ?_⟩
    rw [htr]
    have hb : (h2 == h1) = false := by
      simpa using (beq_eq_false_iff_ne.mpr (Ne.symm hne))
    simp [callOf, List.filter, hb]

/-- Witness for C5 with `h1 = 1`, `h2 = 2`, `p = 5`. -/
theorem one_replaces_handler_set_witness :
    ((((mkEmitter "" false).on_ "x" 1).one "x" 2).emit "x" 5).2 =
      [Call.named 2 5] :=
  (one_replaces_handler_set.2 1 2 5 (by decide)).1

/-- Claim C6: registration is idempotent per handler identity — `on` twice
with the same name and handler equals `on` once (from any dispatcher
state), and from a fresh dispatcher the doubly-registered handler is
invoked exactly once per `emit` of that name. -/
theorem on_idempotent :
    (∀ (e : EventEmitter) (t : String) (cb : Nat),
        (e.on_ t cb).on_ t cb = e.on_ t cb)
  ∧ (∀ (t : String) (cb arg : Nat),
      ((((mkEmitter "" false).on_ t cb).on_ t cb).emit t arg).2 =
        [Call.named cb arg]) := by
  constructor
  · intro e t cb
    unfold EventEmitter.on_
    simp only [EventEmitter.getEventName]
    simp [objGet_objSet_self, objSet_objSet,
      setAdd_of_mem _ _ (mem_setAdd_self _ _)]
  · intro t cb arg
    simp [mkEmitter, EventEmitter.on_, EventEmitter.emit, EventEmitter.emitStep,
      EventEmitter.getEventName, objGet, objSet, setAdd, setDelete, List.find?]

theorem filter_callOf_map_not (cb : Nat) (f : Nat → Call)
    (hf : ∀ c, callOf cb (f c) = (c == cb)) :
    ∀ l : List Nat, cb ∉ l → (l.map f).filter (callOf cb) = [] := by
  intro l
  induction l with
  | nil => intro _; rfl
  | cons a l ih =>
    intro h
    have ha : (a == cb) = false :=
      beq_eq_false_iff_ne.mpr (fun hac => h (hac ▸ List.mem_cons_self a l))
    simp only [List.map_cons, List.filter, hf a, ha]
    exact ih (fun hm => h (List.mem_cons_of_mem a hm))

theorem filter_callOf_map_single (cb : Nat) (f : Nat → Call)
    (hf : ∀ c, callOf cb (f c) = (c == cb)) :
    ∀ l : List Nat, l.Nodup → cb ∈ l →
      (l.map f).filter (callOf cb) = [f cb] := by
  intro l
  induction l with
  | nil => intro _ h; exact absurd h (List.not_mem_nil cb)
  | cons a l ih =>
    intro hn hm
    by_cases hac : a = cb
    · subst hac
      have hnl : a ∉ l := (List.nodup_cons.mp hn).1
      simp only [List.map_cons, List.filter, hf a, beq_self_eq_true]
      rw [filter_callOf_map_not a f hf l hnl]
    · have ha : (a == cb) = false := beq_eq_false_iff_ne.mpr hac
      have hm' : cb ∈ l := by
        cases List.mem_cons.mp hm with
        | inl h => exact absurd h.symm hac
        | inr h => exact h
      simp only [List.map_cons, List.filter, hf a, ha]
      exact ih (List.nodup_cons.mp hn).2 hm'

/-- Claim C9: a function registered both universally and name-scoped for
the name an emit resolves to is invoked twice by a single
`emit(rawName, payload)`: first with the raw name and the payload in the
universal pass, then with the payload alone in the name-scoped pass. -/
theorem dual_registration_two_calls (e : EventEmitter) (t : String)
    (arg cb : Nat) (s : List Nat)
    (hu : e.allEvents.Nodup) (hcu : cb ∈ e.allEvents)
    (hs : objGet e.events (e.getEventName t true) = some s)
    (hsn : s.Nodup) (hcs : cb ∈ s) :
    ((e.emit t arg).2).filter (callOf cb) =
      [Call.uni cb t arg, Call.named cb arg] := by
  rw [emit_trace, hs, Option.getD_some, List.filter_append,
    filter_callOf_map_single cb (fun c => Call.uni c t arg) (fun c => rfl)
      e.allEvents hu hcu,
    filter_callOf_map_single cb (fun c => Call.named c arg) (fun c => rfl)
      s hsn hcs]
  rfl

/-- Witness for C9: handler `1` registered via `onAll` and via `on("x", ·)`
on a fresh unprefixed dispatcher; `emit("x", 5)` calls it twice. -/
theorem dual_registration_two_calls_witness :
    (((((mkEmitter "" false).on_ "x" 1).onAll 1).emit "x" 5).2).filter
        (callOf 1) = [Call.uni 1 "x" 5, Call.named 1 5] :=
  dual_registration_two_calls (((mkEmitter "" false).on_ "x" 1).onAll 1)
    "x" 5 1 [1] (by decide) (by decide) (by decide) (by decide) (by decide)

/-- Claim C1 (code bug evaluation): with `new EventEmitter("ns", false)`
and `once("ns:x", h)`, `emit("x", p)` resolves to `"ns:x"` and invokes the
once-handler, but the removal step `this.off(type, callback)` re-resolves
the raw `"x"` with `autoPrefix = false`, misses `events["ns:x"]`, and only
the once-marker is cleared: the handler is still registered afterwards and
a second `emit("x", p)` invokes it again, contrary to the claimed (and
documented) once semantics. -/
theorem once_handler_invoked_twice_with_pfx :
    (((mkEmitter "ns" false).once "ns:x" 1).emit "x" 0).2 = [Call.named 1 0]
  ∧ objGet ((((mkEmitter "ns" false).once "ns:x" 1).emit "x" 0).1).events
      "ns:x" = some [1]
  ∧ objGet ((((mkEmitter "ns" false).once "ns:x" 1).emit "x" 0).1).onceCallbacks
      "ns:x" = some []
  ∧ ((((mkEmitter "ns" false).once "ns:x" 1).emit "x" 0).1.emit "x" 0).2 =
      [Call.named 1 0] := by
  decide

/-- Claim C2 counterexample: the once-marker invariant is not preserved by
every public operation — after `once("x", 1)` then `off("x", 1)` on a
fresh dispatcher, handler `1` is still marked in `onceCallbacks["x"]` but
is no longer in `events["x"]`. -/
theorem off_breaks_once_marker_invariant :
    ¬ invOnce (((mkEmitter "" false).once "x" 1).off "x" 1) := by
  intro h
  obtain ⟨s, hs, hm⟩ := h "x" 1 [1] (by decide) (by decide)
  have h0 : objGet (((mkEmitter "" false).once "x" 1).off "x" 1).events "x"
      = some [] := by decide
  rw [h0] at hs
  cases hs
  exact absurd hm (List.not_mem_nil 1)

/-- Claim C2 (amended): the once-marker invariant — every handler marked in
`onceCallbacks[name]` is also in `events[name]` — holds for a fresh
dispatcher and is preserved by `on`, `once`, `onAll` and `offAll`; it is
not preserved by `off` (nor by `one`), which remove or discard handlers
without clearing their once-markers. -/
theorem once_marker_invariant_add_ops (p : String) (b : Bool)
    (e : EventEmitter) (t : String) (cb : Nat) :
    invOnce (mkEmitter p b)
  ∧ (invOnce e → invOnce (e.on_ t cb))
  ∧ (invOnce e → invOnce (e.once t cb))
  ∧ (invOnce e → invOnce (e.onAll cb))
  ∧ (invOnce e → invOnce (e.offAll cb)) := by
  refine ⟨?_, ?_, ?_, fun h => h, fun h => h⟩
  · intro t' cb' os hos _
    simp [mkEmitter, objGet, List.find?] at hos
  · intro hInv t' cb' os hos hmem
    have hos' : objGet e.onceCallbacks t' = some os := hos
    unfold EventEmitter.on_
    by_cases hk : e.getEventName t e.autoPfx = t'
    · subst hk
      obtain ⟨s, hsev, hsm⟩ := hInv _ cb' os hos' hmem
      refine ⟨setAdd ((objGet e.events (e.getEventName t e.autoPfx)).getD [])
        cb, ?_, ?_⟩
      · exact objGet_objSet_self _ _ _
      · rw [hsev, Option.getD_some]
        exact (mem_setAdd_iff s cb cb').mpr (Or.inl hsm)
    · obtain ⟨s, hsev, hsm⟩ := hInv t' cb' os hos' hmem
      exact ⟨s, (objGet_objSet_ne _ _ _ _ hk).trans hsev, hsm⟩
  · intro hInv t' cb' os hos hmem
    unfold EventEmitter.once at hos ⊢
    by_cases hk : e.getEventName t e.autoPfx = t'
    · subst hk
      rw [objGet_objSet_self] at hos
      cases hos
      refine ⟨setAdd ((objGet e.events _).getD []) cb, objGet_objSet_self _ _ _, ?_⟩
      rcases (mem_setAdd_iff _ cb cb').mp hmem with hmem' | rfl
      · cases hoc : objGet e.onceCallbacks (e.getEventName t e.autoPfx) with
        | none => rw [hoc] at hmem'; exact absurd hmem' (List.not_mem_nil cb')
        | some os1 =>
          rw [hoc, Option.getD_some] at hmem'
          obtain ⟨s, hsev, hsm⟩ := hInv _ cb' os1 hoc hmem'
          rw [hsev, Option.getD_some]
          exact (mem_setAdd_iff s cb cb').mpr (Or.inl hsm)
      · exact mem_setAdd_self _ _
    · rw [objGet_objSet_ne _ _ _ _ hk] at hos
      obtain ⟨s, hsev, hsm⟩ := hInv t' cb' os hos hmem
      exact ⟨s, (objGet_objSet_ne _ _ _ _ hk).trans hsev, hsm⟩

/-- Witness for C2 (amended): the invariant holds after `once("x", 1)` on a
fresh dispatcher. -/
theorem once_marker_invariant_add_ops_witness :
    invOnce ((mkEmitter "" false).once "x" 1) :=
  (once_marker_invariant_add_ops "" false (mkEmitter "" false) "x" 1).2.2.1
    ((once_marker_invariant_add_ops "" false (mkEmitter "" false) "x" 1).1)
